import Mathlib

/-!
Verification of the x-tool repository core: the generic digest contract,
the HMAC construction built on it (x-hash/src/lib.rs), the lazy hex
formatter (x-hash/src/fmt.rs), and the filesystem error taxonomy
(x-io/src/error.rs with its construction sites in directory.rs, file.rs
and path/mod.rs).

Bytes are modelled as natural numbers; all byte values produced by the
code stay below 256 where that matters and the relevant theorems carry
that bound explicitly.
-/

/-- Modelled from the spec: the Digest trait of x-hash/src/lib.rs.  The
concrete backend modules (sha1, md5, sha256, sha512) are not present in
the sources, so a backend is modelled from the contract in spec sections
3 and 4.1: per-algorithm fixed block and output sizes, a chaining-value
type with its canonical initial value, a compression step consuming one
full block, and a finalization step applied to the running chaining
value, the buffered partial block and the total length counter.  The
finalize_len field records that the output has the fixed output size. -/
structure Digest where
  blockSize : Nat
  outputLen : Nat
  blockSize_pos : 0 < blockSize
  Chain : Type
  initChain : Chain
  compress : Chain → List Nat → Chain
  finalize : Chain → List Nat → Nat → List Nat
  finalize_len : ∀ c buf total, (finalize c buf total).length = outputLen

/-- Modelled from the spec: the internal hash state of a backend — a
running chaining value, a buffered partial block and a total-length
counter (spec section 3, Hash state). -/
structure DigestState (D : Digest) where
  chain : D.Chain
  buffer : List Nat
  total : Nat

/-- Modelled from the spec: new() returns a fresh instance with the
canonical initial chaining value and zeroed (empty) internal buffers. -/
def Digest.new (D : Digest) : DigestState D :=
  ⟨D.initChain, [], 0⟩

/-- Fuel-indexed block absorption: while at least one full block is
buffered, feed it to the compression function.  The fuel only bounds the
recursion; buf.length is always enough fuel since each step removes a
full (nonempty) block. -/
def absorbAux (D : Digest) : Nat → D.Chain → List Nat → D.Chain × List Nat
  | 0, c, buf => (c, buf)
  | fuel + 1, c, buf =>
    if D.blockSize ≤ buf.length then
      absorbAux D fuel (D.compress c (buf.take D.blockSize)) (buf.drop D.blockSize)
    else
      (c, buf)

/-- Process every complete block of buf through the compression step,
returning the new chaining value and the remaining partial block. -/
def absorb (D : Digest) (c : D.Chain) (buf : List Nat) : D.Chain × List Nat :=
  absorbAux D buf.length c buf

/-- Modelled from the spec: update absorbs input of any length,
appending to any previously buffered partial block, processing full
blocks through the compression step as they fill, and buffering any
remainder (spec section 4.1). -/
def DigestState.update {D : Digest} (s : DigestState D) (input : List Nat) : DigestState D :=
  let p := absorb D s.chain (s.buffer ++ input)
  ⟨p.1, p.2, s.total + input.length⟩

/-- Modelled from the spec: result applies the standard padding and
length encoding to the buffered remainder and completes the final
compression steps, all of which the backend model folds into its
finalize field. -/
def DigestState.result {D : Digest} (s : DigestState D) : List Nat :=
  D.finalize s.chain s.buffer s.total

/-- Modelled from the spec: reset returns an existing instance to the
same state as new() (spec section 4.1). -/
def DigestState.reset {D : Digest} (_s : DigestState D) : DigestState D :=
  D.new

/-- One-shot digest of a message: fresh instance, one update, result. -/
def Digest.hash (D : Digest) (m : List Nat) : List Nat :=
  ((D.new).update m).result

theorem absorbAux_nil (D : Digest) : ∀ fuel c, absorbAux D fuel c [] = (c, []) := by
  intro fuel c
  cases fuel with
  | zero => rfl
  | succ n =>
    have h : ¬ D.blockSize ≤ ([] : List Nat).length := by
      have hpos := D.blockSize_pos
      simp only [List.length_nil]
      omega
    simp only [absorbAux]
    rw [if_neg h]

theorem absorbAux_congr (D : Digest) :
    ∀ f₁ f₂ c buf, buf.length ≤ f₁ → buf.length ≤ f₂ →
      absorbAux D f₁ c buf = absorbAux D f₂ c buf := by
  intro f₁
  induction f₁ with
  | zero =>
    intro f₂ c buf h1 _
    have hb : buf = [] := List.length_eq_zero.mp (Nat.le_zero.mp h1)
    subst hb
    rw [absorbAux_nil, absorbAux_nil]
  | succ n ih =>
    intro f₂ c buf h1 h2
    cases f₂ with
    | zero =>
      have hb : buf = [] := List.length_eq_zero.mp (Nat.le_zero.mp h2)
      subst hb
      rw [absorbAux_nil, absorbAux_nil]
    | succ m =>
      by_cases h : D.blockSize ≤ buf.length
      · have hpos := D.blockSize_pos
        have hlen : (buf.drop D.blockSize).length ≤ n := by
          simp only [List.length_drop]
          omega
        have hlen2 : (buf.drop D.blockSize).length ≤ m := by
          simp only [List.length_drop]
          omega
        simp only [absorbAux, h, if_true]
        exact ih m (D.compress c (buf.take D.blockSize)) (buf.drop D.blockSize) hlen hlen2
      · simp only [absorbAux, h, if_false]

theorem absorb_step (D : Digest) (c : D.Chain) (v : List Nat)
    (h : D.blockSize ≤ v.length) :
    absorb D c v
      = absorb D (D.compress c (v.take D.blockSize)) (v.drop D.blockSize) := by
  have hpos := D.blockSize_pos
  obtain ⟨n, hn⟩ : ∃ n, v.length = n + 1 := ⟨v.length - 1, by omega⟩
  unfold absorb
  rw [hn]
  simp only [absorbAux, h, if_true]
  apply absorbAux_congr
  · simp only [List.length_drop]
    omega
  · exact Nat.le_refl _

theorem absorb_of_small (D : Digest) (c : D.Chain) (buf : List Nat)
    (h : ¬ D.blockSize ≤ buf.length) :
    absorb D c buf = (c, buf) := by
  unfold absorb
  cases hl : buf.length with
  | zero => rfl
  | succ n =>
    rw [hl] at h
    simp only [absorbAux, hl, h, if_false]

theorem absorb_append (D : Digest) :
    ∀ fuel u, u.length ≤ fuel → ∀ (c : D.Chain) (extra : List Nat),
      absorb D c (u ++ extra)
        = absorb D (absorb D c u).1 ((absorb D c u).2 ++ extra) := by
  intro fuel
  induction fuel with
  | zero =>
    intro u hu c extra
    have hb : u = [] := List.length_eq_zero.mp (Nat.le_zero.mp hu)
    subst hb
    simp [absorb, absorbAux_nil]
  | succ n ih =>
    intro u hu c extra
    by_cases h : D.blockSize ≤ u.length
    · have hext : D.blockSize ≤ (u ++ extra).length := by
        simp only [List.length_append]
        omega
      have htake : (u ++ extra).take D.blockSize = u.take D.blockSize :=
        List.take_append_of_le_length h
      have hdrop : (u ++ extra).drop D.blockSize = u.drop D.blockSize ++ extra :=
        List.drop_append_of_le_length h
      have hlen : (u.drop D.blockSize).length ≤ n := by
        have hpos := D.blockSize_pos
        simp only [List.length_drop]
        omega
      rw [absorb_step D c (u ++ extra) hext, htake, hdrop,
        ih (u.drop D.blockSize) hlen, ← absorb_step D c u h]
    · rw [absorb_of_small D c u h]

theorem update_append {D : Digest} (s : DigestState D) (a b : List Nat) :
    (s.update a).update b = s.update (a ++ b) := by
  unfold DigestState.update
  have h := absorb_append D (s.buffer ++ a).length (s.buffer ++ a) (Nat.le_refl _)
    s.chain b
  simp only [List.append_assoc] at h ⊢
  rw [← h]
  simp only [List.length_append]
  congr 1
  omega

theorem foldl_update_cons {D : Digest} :
    ∀ (chunks : List (List Nat)) (s : DigestState D) (a : List Nat),
      chunks.foldl DigestState.update (s.update a) = s.update (a ++ chunks.flatten) := by
  intro chunks
  induction chunks with
  | nil =>
    intro s a
    simp [List.foldl]
  | cons c cs ih =>
    intro s a
    rw [List.foldl_cons, update_append, ih, List.append_assoc, List.flatten_cons]

/-- C3: for every Digest backend, every way of splitting an input into a
finite list of chunks (chunks may be empty), calling update once per
chunk in order and then result yields the same output as calling update
once on the whole concatenated sequence and then result, both runs
starting from a fresh instance. -/
theorem incremental_absorption (D : Digest) (chunks : List (List Nat)) :
    (chunks.foldl DigestState.update D.new).result
      = ((D.new).update chunks.flatten).result := by
  cases chunks with
  | nil =>
    simp [List.foldl, List.flatten, DigestState.update, Digest.new, absorb, absorbAux]
  | cons c cs =>
    have h1 : (c :: cs).foldl DigestState.update D.new
        = cs.foldl DigestState.update ((D.new).update c) := rfl
    rw [h1, foldl_update_cons]
    rfl

/-- Copy src into the prefix of buf, as in the Rust statement
key[..src.len()].copy_from_slice(src): the result keeps the tail of buf
past src, and the operation panics (modelled as none) exactly when the
slice bound src.len() exceeds the buffer length. -/
def copyInto (buf src : List Nat) : Option (List Nat) :=
  if src.length ≤ buf.length then some (src ++ buf.drop src.length) else none

/-- Embedding of the HmacKey struct of x-hash/src/lib.rs: it holds one
BlockType-sized buffer of derived key material. -/
structure HmacKey (D : Digest) where
  key : List Nat
deriving DecidableEq

/-- Embedding of HmacKey::new of x-hash/src/lib.rs.  The zeroed
MaybeUninit buffer is a list of blockSize zero bytes; if the secret fits
it is copied into the prefix, otherwise the secret is first reduced by a
one-shot digest (fresh instance, update, result — the trailing reset
acts on a scratch instance that is dropped); finally every byte is XORed
with 0x36.  The Option records the panic of the in-place copy when the
source is longer than the buffer. -/
def HmacKey.new (D : Digest) (secret : List Nat) : Option (HmacKey D) :=
  let key0 : List Nat := List.replicate D.blockSize 0
  let copied : Option (List Nat) :=
    if secret.length ≤ key0.length then
      copyInto key0 secret
    else
      copyInto key0 ((D.new).update secret).result
  match copied with
  | none => none
  | some key1 => some ⟨key1.map (fun b => b ^^^ 0x36)⟩

/-- Embedding of HmacKey::sign of x-hash/src/lib.rs, step by step: copy
the persisted key into a local scratch buffer, run the inner pass on a
fresh instance (update key, update input, result), reset the instance,
XOR the scratch buffer with 0x36 ^ 0x5C, and run the outer pass (update
transformed key, update inner result, result). -/
def HmacKey.sign {D : Digest} (self : HmacKey D) (input : List Nat) : List Nat :=
  let key := self.key
  let algo := D.new
  let algo := algo.update key
  let algo := algo.update input
  let inner_result := algo.result
  let algo := algo.reset
  let key := key.map (fun b => b ^^^ (0x36 ^^^ 0x5C))
  let algo := algo.update key
  let algo := algo.update inner_result
  algo.result

/-- Stateful view of HmacKey::sign: the method takes self by shared
reference and its first statement copies self.key into a local mutable
buffer (BlockType is Copy), so every write in the body lands in the
local copy and the post-state of self equals its pre-state. -/
def HmacKey.signSt {D : Digest} (self : HmacKey D) (input : List Nat) :
    List Nat × HmacKey D :=
  (self.sign input, self)

/-- Iterated signing: thread the key state through a sequence of sign
calls, keeping only the final key state. -/
def HmacKey.signRun {D : Digest} (self : HmacKey D) (inputs : List (List Nat)) :
    HmacKey D :=
  inputs.foldl (fun s i => (s.signSt i).2) self

/-- Embedding of the free function hmac of x-hash/src/lib.rs: derive a
key with HmacKey::new and sign the input once. -/
def hmac (D : Digest) (input secret : List Nat) : Option (List Nat) :=
  (HmacKey.new D secret).map (fun key => key.sign input)

/-- Tiny concrete backend used to instantiate the generic theorems:
block size 2, output size 1, additive chaining value. -/
def trivD : Digest where
  blockSize := 2
  outputLen := 1
  blockSize_pos := Nat.succ_pos 1
  Chain := Nat
  initChain := 0
  compress := fun c blk => (c + blk.sum + 1) % 251
  finalize := fun c buf total => [(c + buf.sum + total) % 251]
  finalize_len := fun _ _ _ => rfl

/-- Degenerate backend whose output is wider than its block, used to
show that the bounds check in HmacKey::new really can fail. -/
def wideD : Digest where
  blockSize := 1
  outputLen := 2
  blockSize_pos := Nat.succ_pos 0
  Chain := Unit
  initChain := ()
  compress := fun _ _ => ()
  finalize := fun _ _ _ => [0, 0]
  finalize_len := fun _ _ _ => rfl

theorem copyInto_length (buf src out : List Nat)
    (h : copyInto buf src = some out) : out.length = buf.length := by
  unfold copyInto at h
  by_cases hle : src.length ≤ buf.length
  · rw [if_pos hle] at h
    have := Option.some.inj h
    subst this
    simp only [List.length_append, List.length_drop]
    omega
  · rw [if_neg hle] at h
    exact absurd h (by simp)

theorem hmacKey_new_eq_small (D : Digest) (secret : List Nat)
    (hs : secret.length ≤ D.blockSize) :
    HmacKey.new D secret
      = some ⟨(secret ++ List.replicate (D.blockSize - secret.length) 0).map
          (fun b => b ^^^ 0x36)⟩ := by
  unfold HmacKey.new copyInto
  simp only [List.length_replicate, hs, if_true, List.drop_replicate]

theorem digest_hash_length (D : Digest) (m : List Nat) :
    (D.hash m).length = D.outputLen := by
  unfold Digest.hash DigestState.result
  exact D.finalize_len _ _ _

theorem hmacKey_new_eq_large (D : Digest) (secret : List Nat)
    (hs : D.blockSize < secret.length) (ho : D.outputLen ≤ D.blockSize) :
    HmacKey.new D secret
      = some ⟨(D.hash secret ++ List.replicate (D.blockSize - D.outputLen) 0).map
          (fun b => b ^^^ 0x36)⟩ := by
  have hs' : ¬ secret.length ≤ D.blockSize := by omega
  have hh : (((D.new).update secret).result).length = D.outputLen :=
    digest_hash_length D secret
  unfold HmacKey.new copyInto
  simp only [List.length_replicate, hs', if_false, hh, ho, if_true,
    List.drop_replicate]
  rfl

theorem hmacKey_new_eq_none (D : Digest) (secret : List Nat)
    (hs : D.blockSize < secret.length) (ho : D.blockSize < D.outputLen) :
    HmacKey.new D secret = none := by
  have hs' : ¬ secret.length ≤ D.blockSize := by omega
  have hh : (((D.new).update secret).result).length = D.outputLen :=
    digest_hash_length D secret
  have ho' : ¬ (((D.new).update secret).result).length ≤
      (List.replicate D.blockSize (0 : Nat)).length := by
    rw [hh, List.length_replicate]
    omega
  unfold HmacKey.new copyInto
  simp only [List.length_replicate, hs', if_false]
  rw [List.length_replicate] at ho'
  simp only [ho', if_false]

theorem signRun_id {D : Digest} (k : HmacKey D) (inputs : List (List Nat)) :
    k.signRun inputs = k := by
  unfold HmacKey.signRun
  induction inputs with
  | nil => rfl
  | cons i is ih => exact ih

/-- C1: for every HmacKey and every input, sign returns the digest of
the outer-pad buffer followed by the inner digest, where the inner
digest is the digest of the stored key buffer followed by the input,
and the outer-pad buffer is the stored key buffer XORed bytewise with
0x36 ^ 0x5C; a key stored as preKey XOR 0x36 therefore yields the
outer-pad buffer preKey XOR 0x5C.  Both passes run on state equal to a
fresh instance: the inner pass starts at new() and the outer pass starts
at the reset state, which the contract equates with new(). -/
theorem sign_is_nested_hash :
    ∀ (D : Digest) (k : HmacKey D) (input : List Nat),
      (k.sign input
        = D.hash ((k.key.map (fun b => b ^^^ (0x36 ^^^ 0x5C)))
            ++ D.hash (k.key ++ input)))
      ∧ ∀ preKey : List Nat,
          (preKey.map (fun b => b ^^^ 0x36)).map (fun b => b ^^^ (0x36 ^^^ 0x5C))
            = preKey.map (fun b => b ^^^ 0x5C) := by
  intro D k input
  constructor
  · simp only [HmacKey.sign, Digest.hash, DigestState.reset, update_append]
  · intro preKey
    rw [List.map_map]
    congr 1
    funext b
    show (b ^^^ 0x36) ^^^ (0x36 ^^^ 0x5C) = b ^^^ 0x5C
    rw [Nat.xor_assoc]
    congr 1

/-- C2: for every secret, HmacKey::new stores a block-sized buffer whose
prefix is the secret (when it fits) or the digest of the secret (when it
does not, provided the digest fits in a block), whose remaining bytes
are exactly zero before the XOR step, and which is then XORed bytewise
with 0x36. -/
theorem hmacKey_new_buffer :
    ∀ (D : Digest) (secret : List Nat),
      (secret.length ≤ D.blockSize →
        HmacKey.new D secret
          = some ⟨(secret ++ List.replicate (D.blockSize - secret.length) 0).map
              (fun b => b ^^^ 0x36)⟩)
      ∧ (D.blockSize < secret.length → D.outputLen ≤ D.blockSize →
        HmacKey.new D secret
          = some ⟨(D.hash secret ++ List.replicate (D.blockSize - D.outputLen) 0).map
              (fun b => b ^^^ 0x36)⟩) := by
  intro D secret
  exact ⟨fun hs => hmacKey_new_eq_small D secret hs,
    fun hs ho => hmacKey_new_eq_large D secret hs ho⟩

theorem hmacKey_new_buffer_witness :
    HmacKey.new trivD [1, 2]
      = some ⟨([1, 2] ++ List.replicate (trivD.blockSize - 2) 0).map
          (fun b => b ^^^ 0x36)⟩
    ∧ HmacKey.new trivD [1, 2, 3]
      = some ⟨(trivD.hash [1, 2, 3]
          ++ List.replicate (trivD.blockSize - trivD.outputLen) 0).map
            (fun b => b ^^^ 0x36)⟩ :=
  ⟨(hmacKey_new_buffer trivD [1, 2]).1 (by decide),
    (hmacKey_new_buffer trivD [1, 2, 3]).2 (by decide) (by decide)⟩

/-- C4: sign is a deterministic function of the persisted key buffer and
the input — any two keys holding byte-identical buffers produce
byte-identical tags on the same input — and the persisted key buffer is
byte-identical before and after any number of sign calls with any
inputs. -/
theorem sign_pure :
    ∀ (D : Digest) (k k' : HmacKey D) (input : List Nat)
      (inputs : List (List Nat)),
      (k.key = k'.key → (k.signSt input).1 = (k'.signSt input).1)
      ∧ k.signRun inputs = k := by
  intro D k k' input inputs
  constructor
  · intro h
    simp only [HmacKey.signSt, HmacKey.sign, h]
  · exact signRun_id k inputs

theorem sign_pure_witness :
    ((⟨[1, 2]⟩ : HmacKey trivD).signSt [3]).1
      = ((⟨[1] ++ [2]⟩ : HmacKey trivD).signSt [3]).1
    ∧ (⟨[1, 2]⟩ : HmacKey trivD).signRun [[3], [4, 5]] = ⟨[1, 2]⟩ :=
  ⟨(sign_pure trivD ⟨[1, 2]⟩ ⟨[1] ++ [2]⟩ [3] [[3], [4, 5]]).1 rfl,
    (sign_pure trivD ⟨[1, 2]⟩ ⟨[1] ++ [2]⟩ [3] [[3], [4, 5]]).2⟩

/-- C5: the free function hmac is exactly HmacKey::new followed by one
sign — its body is that composition, and whenever key derivation yields
a key the returned tag is that key's signature of the input.  There is
no state carried across invocations: hmac is a closed function of its
two arguments. -/
theorem hmac_is_new_then_sign :
    ∀ (D : Digest) (input secret : List Nat),
      (hmac D input secret = (HmacKey.new D secret).map (fun k => k.sign input))
      ∧ ∀ k : HmacKey D, HmacKey.new D secret = some k →
          hmac D input secret = some (k.sign input) := by
  intro D input secret
  refine ⟨rfl, ?_⟩
  intro k hk
  simp only [hmac, hk]
  rfl

theorem hmac_is_new_then_sign_witness :
    hmac trivD [3] [7] = some ((⟨[49, 54]⟩ : HmacKey trivD).sign [3]) :=
  (hmac_is_new_then_sign trivD [3] [7]).2 ⟨[49, 54]⟩ (by decide)

/-- C8: whenever HmacKey::new returns a key, the stored buffer has
length exactly the block size of the chosen backend, and after any
number of subsequent sign calls the buffer still has that length. -/
theorem hmacKey_len_invariant :
    ∀ (D : Digest) (secret : List Nat) (k : HmacKey D),
      HmacKey.new D secret = some k →
      k.key.length = D.blockSize
      ∧ ∀ inputs : List (List Nat),
          (k.signRun inputs).key.length = D.blockSize := by
  intro D secret k hk
  have hlen : k.key.length = D.blockSize := by
    by_cases hs : secret.length ≤ D.blockSize
    · rw [hmacKey_new_eq_small D secret hs] at hk
      have := Option.some.inj hk
      subst this
      simp only [List.length_map, List.length_append, List.length_replicate]
      omega
    · by_cases ho : D.outputLen ≤ D.blockSize
      · rw [hmacKey_new_eq_large D secret (by omega) ho] at hk
        have := Option.some.inj hk
        subst this
        have hh := digest_hash_length D secret
        simp only [List.length_map, List.length_append, List.length_replicate, hh]
        omega
      · rw [hmacKey_new_eq_none D secret (by omega) (by omega)] at hk
        exact absurd hk (by simp)
  exact ⟨hlen, fun inputs => by rw [signRun_id]; exact hlen⟩

theorem hmacKey_len_invariant_witness :
    (⟨[49, 54]⟩ : HmacKey trivD).key.length = trivD.blockSize
    ∧ ∀ inputs : List (List Nat),
        ((⟨[49, 54]⟩ : HmacKey trivD).signRun inputs).key.length
          = trivD.blockSize :=
  hmacKey_len_invariant trivD [7] ⟨[49, 54]⟩ (by decide)

/-- C10: for every backend whose output length is at most its block
length, HmacKey::new never panics, for secrets of any length; and the
precondition is required — a backend with output wider than its block
makes the in-place copy of the reduced digest go out of bounds on a
long secret. -/
theorem hmacKey_new_panic_free :
    (∀ D : Digest, D.outputLen ≤ D.blockSize →
      ∀ secret : List Nat, (HmacKey.new D secret).isSome = true)
    ∧ (∃ (D : Digest) (secret : List Nat),
        D.blockSize < D.outputLen ∧ HmacKey.new D secret = none) := by
  constructor
  · intro D ho secret
    by_cases hs : secret.length ≤ D.blockSize
    · rw [hmacKey_new_eq_small D secret hs]
      rfl
    · rw [hmacKey_new_eq_large D secret (by omega) ho]
      rfl
  · exact ⟨wideD, [0, 0], by decide,
      hmacKey_new_eq_none wideD [0, 0] (by decide) (by decide)⟩

theorem hmacKey_new_panic_free_witness :
    (HmacKey.new trivD [1, 2, 3, 4, 5]).isSome = true :=
  hmacKey_new_panic_free.1 trivD (by decide) [1, 2, 3, 4, 5]

/-- Embedding of the CHAR_TABLE constant of x-hash/src/fmt.rs: the byte
values of the sixteen characters 0123456789abcdef. -/
def CHAR_TABLE : List Nat :=
  [48, 49, 50, 51, 52, 53, 54, 55, 56, 57, 97, 98, 99, 100, 101, 102]

/-- Two hex characters for one byte, as in the loop body of the Display
implementation of DigestFmt: high nibble first, then low nibble, both
looked up in CHAR_TABLE.  On a u8 the wrapping shift by 4 equals a plain
right shift by 4. -/
def hexByte (b : Nat) : List Nat :=
  [CHAR_TABLE.getD ((b >>> 4) &&& 0xf) 0, CHAR_TABLE.getD (b &&& 0xf) 0]

/-- Full output of the DigestFmt Display implementation on a byte
buffer: the per-byte pairs in input order. -/
def digestFmt (bytes : List Nat) : List Nat :=
  (bytes.map hexByte).flatten

/-- Embedding of the fmt method of DigestFmt: iterate over the bytes,
handing each two-character chunk to the destination writer and
propagating its failure, exactly as the question-mark operator does. -/
def writeHex {σ : Type} (write : σ → List Nat → Option σ) :
    σ → List Nat → Option σ
  | s, [] => some s
  | s, b :: rest =>
    match write s (hexByte b) with
    | some s' => writeHex write s' rest
    | none => none

/-- Destination writer that appends to a list and never fails, the
counterpart of formatting into a growable string. -/
def listWrite (s cs : List Nat) : Option (List Nat) :=
  some (s ++ cs)

/-- Independent hex decoder used to state the roundtrip property: two
characters at a time, high nibble first, lowercase alphabet only. -/
def hexDigitVal (c : Nat) : Option Nat :=
  if 48 ≤ c ∧ c ≤ 57 then some (c - 48)
  else if 97 ≤ c ∧ c ≤ 102 then some (c - 87)
  else none

/-- Decode a hex string produced two characters per byte; odd-length
input is rejected. -/
def hexDecode : List Nat → Option (List Nat)
  | [] => some []
  | [_] => none
  | h :: l :: rest =>
    match hexDigitVal h, hexDigitVal l, hexDecode rest with
    | some hv, some lv, some r => some ((16 * hv + lv) :: r)
    | _, _, _ => none

set_option maxRecDepth 10000 in
theorem hexByte_decodes : ∀ b : Nat, b < 256 →
    hexDigitVal (CHAR_TABLE.getD ((b >>> 4) &&& 0xf) 0) = some ((b >>> 4) &&& 0xf)
    ∧ hexDigitVal (CHAR_TABLE.getD (b &&& 0xf) 0) = some (b &&& 0xf)
    ∧ 16 * ((b >>> 4) &&& 0xf) + (b &&& 0xf) = b := by
  decide

set_option maxRecDepth 10000 in
theorem hexByte_mem : ∀ b : Nat, b < 256 →
    CHAR_TABLE.getD ((b >>> 4) &&& 0xf) 0 ∈ CHAR_TABLE
    ∧ CHAR_TABLE.getD (b &&& 0xf) 0 ∈ CHAR_TABLE := by
  decide

theorem hexDecode_cons (b : Nat) (hb : b < 256) (rest : List Nat) (r : List Nat)
    (hr : hexDecode rest = some r) :
    hexDecode (hexByte b ++ rest) = some (b :: r) := by
  obtain ⟨h1, h2, h3⟩ := hexByte_decodes b hb
  simp only [hexByte, List.cons_append, List.nil_append]
  cases rest with
  | nil =>
    simp only [hexDecode, h1, h2]
    have := Option.some.inj hr
    subst this
    rw [h3]
  | cons x xs =>
    simp only [hexDecode, h1, h2, hr]
    rw [h3]

/-- C6: the hex formatter emits exactly two characters per input byte,
all drawn from the lowercase alphabet 0123456789abcdef, high nibble
before low nibble in input order, so that an independent hex decoder
reproduces the original bytes exactly; the empty buffer produces the
empty output. -/
theorem digestFmt_hex :
    ∀ bytes : List Nat, (∀ b ∈ bytes, b < 256) →
      (digestFmt bytes).length = 2 * bytes.length
      ∧ (∀ c ∈ digestFmt bytes, c ∈ CHAR_TABLE)
      ∧ hexDecode (digestFmt bytes) = some bytes
      ∧ digestFmt [] = [] := by
  intro bytes hb
  refine ⟨?_, ?_, ?_, rfl⟩
  · induction bytes with
    | nil => rfl
    | cons x xs ih =>
      have hx : ∀ b ∈ xs, b < 256 := fun b h => hb b (List.mem_cons_of_mem x h)
      simp only [digestFmt, List.map_cons, List.flatten_cons, List.length_append,
        List.length_cons] at ih ⊢
      rw [ih hx]
      simp only [hexByte, List.length_cons, List.length_nil]
      ring
  · induction bytes with
    | nil => intro c hc; exact absurd hc (by simp [digestFmt])
    | cons x xs ih =>
      intro c hc
      have hx : ∀ b ∈ xs, b < 256 := fun b h => hb b (List.mem_cons_of_mem x h)
      simp only [digestFmt, List.map_cons, List.flatten_cons, List.mem_append] at hc
      cases hc with
      | inl h =>
        obtain ⟨hm1, hm2⟩ := hexByte_mem x (hb x (List.mem_cons_self x xs))
        simp only [hexByte, List.mem_cons, List.not_mem_nil, or_false] at h
        cases h with
        | inl h => rw [h]; exact hm1
        | inr h => rw [h]; exact hm2
      | inr h => exact ih hx c h
  · induction bytes with
    | nil => rfl
    | cons x xs ih =>
      have hx : ∀ b ∈ xs, b < 256 := fun b h => hb b (List.mem_cons_of_mem x h)
      simp only [digestFmt, List.map_cons, List.flatten_cons]
      exact hexDecode_cons x (hb x (List.mem_cons_self x xs)) _ xs (ih hx)

theorem digestFmt_hex_witness :
    (digestFmt [0, 171, 255]).length = 2 * ([0, 171, 255] : List Nat).length
    ∧ (∀ c ∈ digestFmt [0, 171, 255], c ∈ CHAR_TABLE)
    ∧ hexDecode (digestFmt [0, 171, 255]) = some [0, 171, 255]
    ∧ digestFmt [] = [] :=
  digestFmt_hex [0, 171, 255] (by decide)

/-- C7: the hex formatter never fails of itself — into an infallible
destination it always completes, producing exactly the expected output,
and into any destination whose write calls all succeed the formatting
run succeeds. -/
theorem digestFmt_infallible :
    (∀ bytes acc : List Nat,
      writeHex listWrite acc bytes = some (acc ++ digestFmt bytes))
    ∧ (∀ (σ : Type) (write : σ → List Nat → Option σ),
        (∀ s cs, (write s cs).isSome = true) →
        ∀ (s : σ) (bytes : List Nat), (writeHex write s bytes).isSome = true) := by
  constructor
  · intro bytes
    induction bytes with
    | nil =>
      intro acc
      simp [writeHex, digestFmt]
    | cons x xs ih =>
      intro acc
      simp only [writeHex, listWrite, ih, digestFmt, List.map_cons,
        List.flatten_cons, List.append_assoc]
  · intro σ write hw
    intro s bytes
    induction bytes generalizing s with
    | nil => rfl
    | cons x xs ih =>
      have := hw s (hexByte x)
      cases hws : write s (hexByte x) with
      | none => rw [hws] at this; exact absurd this (by simp)
      | some s' =>
        simp only [writeHex, hws]
        exact ih s'

theorem digestFmt_infallible_witness :
    (writeHex listWrite [] [222, 173]).isSome = true :=
  digestFmt_infallible.2 (List Nat) listWrite (fun _ _ => rfl) [] [222, 173]

/-- Opaque model of std::io::Error values handed to the filesystem layer
by the operating system. -/
structure StdIoError where
  code : Nat
deriving DecidableEq

/-- Opaque model of std::time::SystemTimeError values. -/
structure StdTimeError where
  code : Nat
deriving DecidableEq

/-- Embedding of the FsIOError enum of x-io/src/error.rs: exactly four
cases, with the IO and system-time cases carrying an optional cause. -/
inductive FsIOError where
  | AlreadyExist (message : String)
  | NotFile (message : String)
  | IOError (message : String) (cause : Option StdIoError)
  | SystemTimeError (message : String) (cause : Option StdTimeError)
deriving DecidableEq

/-- Embedding of the Error::source implementation of x-io/src/error.rs:
no cause for AlreadyExist and NotFile, the stored cause (when present)
for the other two, tagged with its dynamic type. -/
def FsIOError.source : FsIOError → Option (StdIoError ⊕ StdTimeError)
  | .AlreadyExist _ => none
  | .NotFile _ => none
  | .IOError _ error => error.map Sum.inl
  | .SystemTimeError _ error => error.map Sum.inr

/-- Result alias of x-io/src/result.rs usage sites. -/
def FsIOResult (α : Type) : Type := Except FsIOError α

/-- Outcomes of the operating-system calls a single path can trigger,
passed to the embedded operations as an oracle: predicates on the path
and the fallible raw calls, each either succeeding or failing with the
original io or system-time error. -/
structure OsWorld where
  pathExists : Bool
  isDir : Bool
  isFile : Bool
  createDirAll : Except StdIoError Unit
  removeDirAll : Except StdIoError Unit
  removeFile : Except StdIoError Unit
  fileCreate : Except StdIoError Unit
  openAppend : Except StdIoError Unit
  writeContent : Except StdIoError Unit
  syncAll : Except StdIoError Unit
  readToString : Except StdIoError String
  readBytes : Except StdIoError (List Nat)
  canonicalize : Except StdIoError String
  metadata : Except StdIoError Unit
  modified : Except StdIoError Unit
  durationSince : Except StdTimeError Nat

/-- Embedding of directory::create of x-io/src/directory.rs. -/
def directory.create (w : OsWorld) (path : String) : FsIOResult Unit :=
  if w.isDir && w.pathExists then .ok ()
  else
    match w.createDirAll with
    | .ok _ => .ok ()
    | .error e =>
      .error (.IOError ("Unable to create directory: " ++ path ++ ".") (some e))

/-- Embedding of directory::create_parent of x-io/src/directory.rs: the
parent path computed from the input (none when there is no parent) and
the oracle for that parent path. -/
def directory.create_parent (parent : Option String) (wp : OsWorld) :
    FsIOResult Unit :=
  match parent with
  | some dir => directory.create wp dir
  | none => .ok ()

/-- Embedding of directory::delete of x-io/src/directory.rs. -/
def directory.delete (w : OsWorld) (path : String) : FsIOResult Unit :=
  if w.pathExists then
    if w.isDir then
      match w.removeDirAll with
      | .ok _ => .ok ()
      | .error e =>
        .error (.IOError ("Unable to delete directory: " ++ path) (some e))
    else
      .error (.NotFile ("Path: " ++ path ++ " is not a directory."))
  else .ok ()

/-- Embedding of file::ensure_exists of x-io/src/file.rs. -/
def file.ensure_exists (parent : Option String) (wp w : OsWorld)
    (path : String) : FsIOResult Unit :=
  if w.pathExists then
    if w.isFile then .ok ()
    else .error (.AlreadyExist ("Unable to create file: " ++ path))
  else
    match directory.create_parent parent wp with
    | .error e => .error e
    | .ok _ =>
      match w.fileCreate with
      | .ok _ => .ok ()
      | .error e =>
        .error (.IOError ("Unable to create file: " ++ path) (some e))

/-- Embedding of file::modify_file of x-io/src/file.rs: create the
parent directory, create or open the file, run the write-content
closure, sync; each raw failure is wrapped with its message. -/
def file.modify_file (parent : Option String) (wp w : OsWorld)
    (path : String) (append : Bool) : FsIOResult Unit :=
  match directory.create_parent parent wp with
  | .error e => .error e
  | .ok _ =>
    match (if append && w.pathExists then w.openAppend else w.fileCreate) with
    | .ok _ =>
      match w.writeContent with
      | .ok _ =>
        match w.syncAll with
        | .ok _ => .ok ()
        | .error e =>
          .error (.IOError ("Error finish up writing to file: " ++ path) (some e))
      | .error e =>
        .error (.IOError ("Error while writing to file: " ++ path) (some e))
    | .error e =>
      .error (.IOError ("Unable to create/open file: " ++ path ++ " for writing.")
        (some e))

/-- Embedding of file::write_file of x-io/src/file.rs: modify_file with
the write-all closure and append set to false; the data only influences
the write outcome recorded in the oracle. -/
def file.write_file (parent : Option String) (wp w : OsWorld)
    (path : String) (_data : List Nat) : FsIOResult Unit :=
  file.modify_file parent wp w path false

/-- Embedding of file::append_file of x-io/src/file.rs. -/
def file.append_file (parent : Option String) (wp w : OsWorld)
    (path : String) (_data : List Nat) : FsIOResult Unit :=
  file.modify_file parent wp w path true

/-- Embedding of file::write_text_file of x-io/src/file.rs. -/
def file.write_text_file (parent : Option String) (wp w : OsWorld)
    (path : String) (text : List Nat) : FsIOResult Unit :=
  file.write_file parent wp w path text

/-- Embedding of file::append_text_file of x-io/src/file.rs. -/
def file.append_text_file (parent : Option String) (wp w : OsWorld)
    (path : String) (text : List Nat) : FsIOResult Unit :=
  file.append_file parent wp w path text

/-- Embedding of file::read_text_file of x-io/src/file.rs. -/
def file.read_text_file (w : OsWorld) (path : String) : FsIOResult String :=
  match w.readToString with
  | .ok content => .ok content
  | .error e => .error (.IOError ("Unable to read file: " ++ path) (some e))

/-- Embedding of file::read_file of x-io/src/file.rs. -/
def file.read_file (w : OsWorld) (path : String) : FsIOResult (List Nat) :=
  match w.readBytes with
  | .ok content => .ok content
  | .error e => .error (.IOError ("Unable to read file: " ++ path) (some e))

/-- Embedding of file::delete of x-io/src/file.rs. -/
def file.delete (w : OsWorld) (path : String) : FsIOResult Unit :=
  if w.pathExists then
    if w.isFile then
      match w.removeFile with
      | .ok _ => .ok ()
      | .error e =>
        .error (.IOError ("Unable to delete file: " ++ path) (some e))
    else
      .error (.NotFile ("Path: " ++ path ++ " is not a file."))
  else .ok ()

/-- Embedding of file::delete_ignore_error of x-io/src/file.rs. -/
def file.delete_ignore_error (w : OsWorld) (path : String) : Bool :=
  match file.delete w path with
  | .ok _ => true
  | .error _ => false

/-- Embedding of path::normalize_as_string of x-io/src/path/mod.rs, on
the non-windows branch compiled here. -/
def path.normalize_as_string (w : OsWorld) : FsIOResult String :=
  match w.canonicalize with
  | .ok value => .ok value
  | .error e => .error (.IOError "Unable to canonicalize path." (some e))

/-- Embedding of path::canonicalize_or of x-io/src/path/mod.rs. -/
def path.canonicalize_or (w : OsWorld) (orValue : String) : String :=
  match path.normalize_as_string w with
  | .ok value => value
  | .error _ => orValue

/-- Embedding of path::get_last_modified_time of x-io/src/path/mod.rs. -/
def path.get_last_modified_time (w : OsWorld) : FsIOResult Nat :=
  match w.metadata with
  | .ok _ =>
    match w.modified with
    | .ok _ =>
      match w.durationSince with
      | .ok duration => .ok duration
      | .error e =>
        .error (.SystemTimeError
          "Unable to get last modified duration for path." (some e))
    | .error e =>
      .error (.IOError "Unable to extract modified time for path." (some e))
  | .error e =>
    .error (.IOError "Unable to extract metadata for path." (some e))

/-- An error whose cause, when its variant can carry one, is present and
retrievable through source with the original value. -/
def causeOk : FsIOError → Prop
  | .AlreadyExist _ => True
  | .NotFile _ => True
  | .IOError m c => ∃ x, c = some x
      ∧ (FsIOError.IOError m c).source = some (Sum.inl x)
  | .SystemTimeError m c => ∃ x, c = some x
      ∧ (FsIOError.SystemTimeError m c).source = some (Sum.inr x)

/-- A result that either succeeded or failed with a well-caused error. -/
def exceptCauseOk {α : Type} : Except FsIOError α → Prop
  | .ok _ => True
  | .error e => causeOk e

theorem causeOk_io (m : String) (e : StdIoError) :
    causeOk (.IOError m (some e)) :=
  ⟨e, rfl, rfl⟩

theorem causeOk_time (m : String) (e : StdTimeError) :
    causeOk (.SystemTimeError m (some e)) :=
  ⟨e, rfl, rfl⟩

theorem causeOk_already (m : String) : causeOk (.AlreadyExist m) :=
  trivial

theorem causeOk_notfile (m : String) : causeOk (.NotFile m) :=
  trivial

theorem create_causeOk (w : OsWorld) (path : String) :
    exceptCauseOk (directory.create w path) := by
  unfold directory.create
  split
  · trivial
  · cases w.createDirAll with
    | ok _ => trivial
    | error e => exact causeOk_io _ e

theorem create_parent_causeOk (parent : Option String) (wp : OsWorld) :
    exceptCauseOk (directory.create_parent parent wp) := by
  unfold directory.create_parent
  cases parent with
  | some dir => exact create_causeOk wp dir
  | none => trivial

theorem directory_delete_causeOk (w : OsWorld) (path : String) :
    exceptCauseOk (directory.delete w path) := by
  unfold directory.delete
  split
  · split
    · cases w.removeDirAll with
      | ok _ => trivial
      | error e => exact causeOk_io _ e
    · trivial
  · trivial

theorem ensure_exists_causeOk (parent : Option String) (wp w : OsWorld)
    (path : String) : exceptCauseOk (file.ensure_exists parent wp w path) := by
  unfold file.ensure_exists
  split
  · split
    · trivial
    · trivial
  · have h := create_parent_causeOk parent wp
    cases hc : directory.create_parent parent wp with
    | error e =>
      rw [hc] at h
      exact h
    | ok _ =>
      cases w.fileCreate with
      | ok _ => trivial
      | error e => exact causeOk_io _ e

theorem modify_file_causeOk (parent : Option String) (wp w : OsWorld)
    (path : String) (append : Bool) :
    exceptCauseOk (file.modify_file parent wp w path append) := by
  unfold file.modify_file
  have h := create_parent_causeOk parent wp
  cases hc : directory.create_parent parent wp with
  | error e =>
    rw [hc] at h
    exact h
  | ok _ =>
    cases (if append && w.pathExists then w.openAppend else w.fileCreate) with
    | ok _ =>
      cases w.writeContent with
      | ok _ =>
        cases w.syncAll with
        | ok _ => trivial
        | error e => exact causeOk_io _ e
      | error e => exact causeOk_io _ e
    | error e => exact causeOk_io _ e

theorem read_text_file_causeOk (w : OsWorld) (path : String) :
    exceptCauseOk (file.read_text_file w path) := by
  unfold file.read_text_file
  cases w.readToString with
  | ok _ => trivial
  | error e => exact causeOk_io _ e

theorem read_file_causeOk (w : OsWorld) (path : String) :
    exceptCauseOk (file.read_file w path) := by
  unfold file.read_file
  cases w.readBytes with
  | ok _ => trivial
  | error e => exact causeOk_io _ e

theorem file_delete_causeOk (w : OsWorld) (path : String) :
    exceptCauseOk (file.delete w path) := by
  unfold file.delete
  split
  · split
    · cases w.removeFile with
      | ok _ => trivial
      | error e => exact causeOk_io _ e
    · trivial
  · trivial

theorem normalize_causeOk (w : OsWorld) :
    exceptCauseOk (path.normalize_as_string w) := by
  unfold path.normalize_as_string
  cases w.canonicalize with
  | ok _ => trivial
  | error e => exact causeOk_io _ e

theorem last_modified_causeOk (w : OsWorld) :
    exceptCauseOk (path.get_last_modified_time w) := by
  unfold path.get_last_modified_time
  cases w.metadata with
  | error e => exact causeOk_io _ e
  | ok _ =>
    cases w.modified with
    | error e => exact causeOk_io _ e
    | ok _ =>
      cases w.durationSince with
      | ok _ => trivial
      | error e => exact causeOk_time _ e

/-- C9: every fallible operation of the filesystem layer produces errors
drawn from the single four-case FsIOError type, and whenever it returns
the IO-failure or system-clock-failure case the original causing error
is stored and retrievable through the standard source chain. -/
theorem fsio_error_taxonomy :
    (∀ e : FsIOError,
      (∃ m, e = .AlreadyExist m) ∨ (∃ m, e = .NotFile m)
      ∨ (∃ m c, e = .IOError m c) ∨ (∃ m c, e = .SystemTimeError m c))
    ∧ (∀ (m : String) (c : StdIoError),
        (FsIOError.IOError m (some c)).source = some (Sum.inl c))
    ∧ (∀ (m : String) (c : StdTimeError),
        (FsIOError.SystemTimeError m (some c)).source = some (Sum.inr c))
    ∧ (∀ w path, exceptCauseOk (directory.create w path))
    ∧ (∀ parent wp, exceptCauseOk (directory.create_parent parent wp))
    ∧ (∀ w path, exceptCauseOk (directory.delete w path))
    ∧ (∀ parent wp w path, exceptCauseOk (file.ensure_exists parent wp w path))
    ∧ (∀ parent wp w path append,
        exceptCauseOk (file.modify_file parent wp w path append))
    ∧ (∀ parent wp w path data,
        exceptCauseOk (file.write_file parent wp w path data))
    ∧ (∀ parent wp w path data,
        exceptCauseOk (file.append_file parent wp w path data))
    ∧ (∀ parent wp w path text,
        exceptCauseOk (file.write_text_file parent wp w path text))
    ∧ (∀ parent wp w path text,
        exceptCauseOk (file.append_text_file parent wp w path text))
    ∧ (∀ w path, exceptCauseOk (file.read_text_file w path))
    ∧ (∀ w path, exceptCauseOk (file.read_file w path))
    ∧ (∀ w path, exceptCauseOk (file.delete w path))
    ∧ (∀ w, exceptCauseOk (path.normalize_as_string w))
    ∧ (∀ w, exceptCauseOk (path.get_last_modified_time w)) := by
  refine ⟨?_, fun _ _ => rfl, fun _ _ => rfl,
    create_causeOk, create_parent_causeOk, directory_delete_causeOk,
    ensure_exists_causeOk, modify_file_causeOk,
    fun parent wp w path data => modify_file_causeOk parent wp w path false,
    fun parent wp w path data => modify_file_causeOk parent wp w path true,
    fun parent wp w path text => modify_file_causeOk parent wp w path false,
    fun parent wp w path text => modify_file_causeOk parent wp w path true,
    read_text_file_causeOk, read_file_causeOk, file_delete_causeOk,
    normalize_causeOk, last_modified_causeOk⟩
  intro e
  cases e with
  | AlreadyExist m => exact Or.inl ⟨m, rfl⟩
  | NotFile m => exact Or.inr (Or.inl ⟨m, rfl⟩)
  | IOError m c => exact Or.inr (Or.inr (Or.inl ⟨m, c, rfl⟩))
  | SystemTimeError m c => exact Or.inr (Or.inr (Or.inr ⟨m, c, rfl⟩))
